import Mathlib

/-!
Verification of the `bindex` repository core: the hash-linked header chain
with global transaction-position resolution (`src/chain.rs`) and the
status engine (history gathering, ledger replay, cache sync) of
`src/bin/bindex.rs`.

Hashes, scripts and byte blobs are modelled as natural numbers; machine
integers that can only grow (positions, heights, offsets, amounts) are
natural numbers, signed amounts are integers.  Operations whose Rust
source can panic (`assert!`, `unwrap`) are embedded as `Option`-valued
functions returning `none` at the panic.
-/

namespace Bindex

/-- Modelled from the spec: `index::Header` is the per-block record (block
hash, parent hash, wall-clock time, and the cumulative end-position
`next_txpos`, the global transaction position just past this block).  The
`index` module is not part of the given sources; its fields are taken
from the spec's data model ("hash, parent hash, height, time,
end-position (cumulative tx count through this block)"). -/
structure Header where
  hash : Nat
  prev_blockhash : Nat
  time : Nat
  next_txpos : Nat
  deriving Repr, DecidableEq

/-- `Chain` from `src/chain.rs`: an ordered sequence of headers
(`rows: Vec<index::Header>`). -/
structure Chain where
  rows : List Header
  deriving Repr, DecidableEq

/-- `Location` from the crate root (spec: "height, intra-block offset,
non-owning reference to a Header").  The reference is embedded by value. -/
structure Location where
  height : Nat
  offset : Nat
  indexed_header : Header
  deriving Repr, DecidableEq

/-- `Chain::tip_hash`: hash of the last header, if any. -/
def Chain.tip_hash (c : Chain) : Option Nat :=
  c.rows.getLast?.map Header.hash

/-- `Chain::tip_height`: `rows.len().checked_sub(1)`. -/
def Chain.tip_height (c : Chain) : Option Nat :=
  match c.rows.length with
  | 0 => none
  | n + 1 => some n

/-- `Chain::next_txpos`: the tip's `next_txpos`, or the default position
(zero) on an empty chain. -/
def Chain.next_txpos (c : Chain) : Nat :=
  (c.rows.getLast?.map Header.next_txpos).getD 0

/-- `Chain::add`: asserts that the new header's parent hash equals the
current tip hash (the all-zero hash when empty) and pushes it. The
failed assertion (a Rust panic) is `none`. -/
def Chain.add (c : Chain) (row : Header) : Option Chain :=
  if row.prev_blockhash = c.tip_hash.getD 0 then
    some ⟨c.rows ++ [row]⟩
  else
    none

/-- `Chain::pop`: `Vec::pop` — removes and returns the last header when
the chain is non-empty; on an empty chain it returns `none` and leaves
the chain unchanged (no panic, no error). -/
def Chain.pop (c : Chain) : Option Header × Chain :=
  match c.rows.getLast? with
  | none => (none, c)
  | some h => (some h, ⟨c.rows.dropLast⟩)

/-- `Chain::get_by_height`: `rows.get(height)`. -/
def Chain.get_by_height (c : Chain) (height : Nat) : Option Header :=
  c.rows.get? height

/-- `slice::binary_search_by_key` from the Rust standard library,
specialised to `Nat` keys: three-way search over `keys[left..right]`,
returning `Sum.inl mid` (Rust `Ok(mid)`) as soon as `keys[mid] = target`
and `Sum.inr left` (Rust `Err(left)`) when the interval is empty. -/
def bsGo (keys : List Nat) (target : Nat) (left right : Nat) : Sum Nat Nat :=
  if h : left < right then
    let mid := left + (right - left) / 2
    let k := keys.getD mid 0
    if k < target then
      bsGo keys target (mid + 1) right
    else if target < k then
      bsGo keys target left mid
    else
      Sum.inl mid
  else
    Sum.inr left
termination_by right - left
decreasing_by
  · omega
  · omega

/-- The height `find_by_txpos` derives from the binary-search outcome:
`Ok(i)` (a key hit exactly a block boundary) maps to `i + 1`, `Err(i)`
to `i`. -/
def bsHeight (keys : List Nat) (target : Nat) : Nat :=
  match bsGo keys target 0 keys.length with
  | Sum.inl i => i + 1
  | Sum.inr i => i

/-- `Chain::find_by_txpos`: binary search over the headers keyed by
`next_txpos`; a key exactly equal to a block-boundary position resolves
to the next block.  `rows.get(height)?` failing yields `none`.  For
`height = 0`, the Rust `rows.get(height - 1)` underflows to
`usize::MAX` and yields `None`, hence the default (zero) position; the
`assert!(txpos >= &prev_pos)` panic and the `offset_from(..).unwrap()`
panic are both embedded as `none`. -/
def Chain.find_by_txpos (c : Chain) (txpos : Nat) : Option Location :=
  let keys := c.rows.map Header.next_txpos
  let height := bsHeight keys txpos
  match c.rows.get? height with
  | none => none
  | some hdr =>
    let prev_pos : Nat :=
      match height with
      | 0 => 0
      | h + 1 => ((c.rows.get? h).map Header.next_txpos).getD 0
    if txpos < prev_pos then
      none
    else
      some ⟨height, txpos - prev_pos, hdr⟩

/-- The hash-link verification loop of `Chain::new`: starting from the
given block hash (the all-zero hash, i.e. `0`, at the root), every
header's `prev_blockhash` equals the hash of its predecessor. -/
def linkedFrom : Nat → List Header → Bool
  | _, [] => true
  | bh, r :: rs => r.prev_blockhash == bh && linkedFrom r.hash rs

/-- A chain is hash-linked when `Chain::new`'s assertion loop accepts its
rows. -/
def Chain.Linked (c : Chain) : Prop :=
  linkedFrom 0 c.rows = true

instance (c : Chain) : Decidable c.Linked :=
  inferInstanceAs (Decidable (linkedFrom 0 c.rows = true))

/-- Modelled from the spec: end-positions are cumulative transaction
counts, so each block (which contains at least its coinbase
transaction) strictly increases the running position.  `posSorted p rs`
states that the `next_txpos` values of `rs` strictly increase starting
strictly above `p`. -/
def posSorted : Nat → List Header → Bool
  | _, [] => true
  | p, r :: rs => p < r.next_txpos && posSorted r.next_txpos rs

/-- A chain whose cumulative end-positions strictly increase from the
default (zero) position. -/
def Chain.PosSorted (c : Chain) : Prop :=
  posSorted 0 c.rows = true

instance (c : Chain) : Decidable c.PosSorted :=
  inferInstanceAs (Decidable (posSorted 0 c.rows = true))

/-- The end-position of the block at a given height (the `next_txpos`
key the binary search compares against); zero when out of range. -/
def Chain.end_position (c : Chain) (i : Nat) : Nat :=
  ((c.rows.get? i).map Header.next_txpos).getD 0

/-- The end-position of the previous block: zero at height zero
(`TxPos::default`), matching the `rows.get(height - 1)` fallback. -/
def Chain.prevEnd (c : Chain) : Nat → Nat
  | 0 => 0
  | i + 1 => c.end_position i

theorem bsGo_inl (keys : List Nat) (t : Nat) (left right i : Nat)
    (heq : bsGo keys t left right = Sum.inl i) :
    left ≤ i ∧ i < right ∧ keys.getD i 0 = t := by
  rw [bsGo] at heq
  by_cases h : left < right
  · simp only [dif_pos h] at heq
    by_cases h1 : keys.getD (left + (right - left) / 2) 0 < t
    · simp only [if_pos h1] at heq
      have := bsGo_inl keys t (left + (right - left) / 2 + 1) right i heq
      exact ⟨by omega, this.2.1, this.2.2⟩
    · simp only [if_neg h1] at heq
      by_cases h2 : t < keys.getD (left + (right - left) / 2) 0
      · simp only [if_pos h2] at heq
        have := bsGo_inl keys t left (left + (right - left) / 2) i heq
        exact ⟨this.1, by omega, this.2.2⟩
      · simp only [if_neg h2, Sum.inl.injEq] at heq
        subst heq
        exact ⟨by omega, by omega, by omega⟩
  · simp only [dif_neg h] at heq
    exact absurd heq (by simp)
termination_by right - left

theorem bsGo_inr (keys : List Nat) (t : Nat) (left right i : Nat)
    (hmono : ∀ a b, a ≤ b → b < keys.length → keys.getD a 0 ≤ keys.getD b 0)
    (hlr : left ≤ right) (hrl : right ≤ keys.length)
    (hL : ∀ j, j < left → keys.getD j 0 < t)
    (hR : ∀ j, right ≤ j → j < keys.length → t < keys.getD j 0)
    (heq : bsGo keys t left right = Sum.inr i) :
    (∀ j, j < i → keys.getD j 0 < t) ∧
      (∀ j, i ≤ j → j < keys.length → t < keys.getD j 0) := by
  rw [bsGo] at heq
  by_cases h : left < right
  · simp only [dif_pos h] at heq
    by_cases h1 : keys.getD (left + (right - left) / 2) 0 < t
    · simp only [if_pos h1] at heq
      refine bsGo_inr keys t (left + (right - left) / 2 + 1) right i hmono
        (by omega) hrl ?_ hR heq
      intro j hj
      rcases Nat.lt_or_ge j left with hc | hc
      · exact hL j hc
      · calc keys.getD j 0 ≤ keys.getD (left + (right - left) / 2) 0 :=
              hmono j _ (by omega) (by omega)
          _ < t := h1
    · simp only [if_neg h1] at heq
      by_cases h2 : t < keys.getD (left + (right - left) / 2) 0
      · simp only [if_pos h2] at heq
        refine bsGo_inr keys t left (left + (right - left) / 2) i hmono
          (by omega) (by omega) hL ?_ heq
        intro j hj hjlen
        calc t < keys.getD (left + (right - left) / 2) 0 := h2
          _ ≤ keys.getD j 0 := hmono _ j hj hjlen
      · simp only [if_neg h2] at heq
        exact absurd heq (by simp)
  · simp only [dif_neg h] at heq
    have hi : i = left := by simpa using heq.symm
    constructor
    · intro j hj
      exact hL j (by omega)
    · intro j hj hjl
      exact hR j (by omega) hjl
termination_by right - left

/-- The height computed by `find_by_txpos` is the first index whose
end-position key strictly exceeds the target: every key strictly below
it is at most the target, every key from it on is strictly above. -/
theorem bsHeight_spec (keys : List Nat) (t : Nat)
    (hstrict : ∀ a b, a < b → b < keys.length → keys.getD a 0 < keys.getD b 0) :
    (∀ j, j < bsHeight keys t → j < keys.length → keys.getD j 0 ≤ t) ∧
      (∀ j, bsHeight keys t ≤ j → j < keys.length → t < keys.getD j 0) := by
  have hmono : ∀ a b, a ≤ b → b < keys.length → keys.getD a 0 ≤ keys.getD b 0 := by
    intro a b hab hb
    rcases Nat.lt_or_ge a b with hc | hc
    · exact le_of_lt (hstrict a b hc hb)
    · have : a = b := by omega
      subst this; exact le_refl _
  unfold bsHeight
  rcases hgo : bsGo keys t 0 keys.length with i | i <;> dsimp only
  · -- Ok(i): the key at i equals the target exactly
    obtain ⟨-, hir, hit⟩ := bsGo_inl keys t 0 keys.length i hgo
    constructor
    · intro j hj hjl
      have hji : j ≤ i := by omega
      calc keys.getD j 0 ≤ keys.getD i 0 := hmono j i hji hir
        _ = t := hit
    · intro j hj hjl
      have : keys.getD i 0 < keys.getD j 0 := hstrict i j (by omega) hjl
      omega
  · -- Err(i): the insertion point
    obtain ⟨hlo, hhi⟩ := bsGo_inr keys t 0 keys.length i hmono
      (Nat.zero_le _) (le_refl _) (by omega) (by omega) hgo
    exact ⟨fun j hj _ => le_of_lt (hlo j hj), hhi⟩

theorem posSorted_lt_getD (rs : List Header) (p : Nat) (h : posSorted p rs = true) :
    ∀ j, j < rs.length → p < (rs.map Header.next_txpos).getD j 0 := by
  induction rs generalizing p with
  | nil => intro j hj; simp at hj
  | cons r rs ih =>
    simp only [posSorted, Bool.and_eq_true, decide_eq_true_eq] at h
    intro j hj
    cases j with
    | zero => simpa using h.1
    | succ j =>
      have := ih r.next_txpos h.2 j (by simp only [List.length_cons] at hj; omega)
      simp only [List.map_cons, List.getD_cons_succ]
      exact lt_trans h.1 this

theorem posSorted_strict_getD (rs : List Header) (p : Nat) (h : posSorted p rs = true) :
    ∀ a b, a < b → b < rs.length →
      (rs.map Header.next_txpos).getD a 0 < (rs.map Header.next_txpos).getD b 0 := by
  induction rs generalizing p with
  | nil => intro a b hab hb; simp at hb
  | cons r rs ih =>
    simp only [posSorted, Bool.and_eq_true, decide_eq_true_eq] at h
    intro a b hab hb
    cases a with
    | zero =>
      cases b with
      | zero => omega
      | succ b =>
        simp only [List.map_cons, List.getD_cons_zero, List.getD_cons_succ]
        exact posSorted_lt_getD rs r.next_txpos h.2 b
          (by simp only [List.length_cons] at hb; omega)
    | succ a =>
      cases b with
      | zero => omega
      | succ b =>
        simp only [List.map_cons, List.getD_cons_succ]
        exact ih r.next_txpos h.2 a b (by omega)
          (by simp only [List.length_cons] at hb; omega)

theorem end_position_eq_getD (c : Chain) (j : Nat) :
    c.end_position j = (c.rows.map Header.next_txpos).getD j 0 := by
  simp [Chain.end_position, List.getD_eq_get?, List.get?_map]

theorem next_txpos_eq_getD (c : Chain) :
    c.next_txpos = (c.rows.map Header.next_txpos).getD (c.rows.length - 1) 0 := by
  simp [Chain.next_txpos, List.getLast?_eq_get?, List.getD_eq_get?, List.get?_map]

/-- `find_by_txpos` written without the intermediate `let`s, for reasoning. -/
theorem find_by_txpos_eq (c : Chain) (p : Nat) :
    c.find_by_txpos p =
      match c.rows.get? (bsHeight (c.rows.map Header.next_txpos) p) with
      | none => none
      | some hdr =>
        if p < c.prevEnd (bsHeight (c.rows.map Header.next_txpos) p) then none
        else some ⟨bsHeight (c.rows.map Header.next_txpos) p,
                   p - c.prevEnd (bsHeight (c.rows.map Header.next_txpos) p), hdr⟩ := by
  unfold Chain.find_by_txpos
  dsimp only
  generalize bsHeight (c.rows.map Header.next_txpos) p = n
  rcases n with _ | n
  · rcases c.rows.get? 0 with _ | hdr <;> rfl
  · rcases c.rows.get? (n + 1) with _ | hdr <;> rfl

/-- C1: for every hash-linked chain (with the strictly increasing
cumulative end-position invariant) and every position
`p < next_txpos()`, `find_by_txpos` returns a `Location` whose height
satisfies `end_position[height-1] <= p < end_position[height]` (the
previous end-position taken as `0` at height `0`) and whose offset is
`p - end_position[height-1]`; a position exactly equal to some header's
end-position resolves to the next header at offset `0`. -/
theorem find_by_txpos_resolves (c : Chain) (p : Nat)
    (hlink : c.Linked) (hsort : c.PosSorted) (hp : p < c.next_txpos) :
    (c.find_by_txpos p).isSome = true ∧
    ∀ loc, c.find_by_txpos p = some loc →
      loc.height < c.rows.length ∧
      c.prevEnd loc.height ≤ p ∧
      p < c.end_position loc.height ∧
      loc.offset = p - c.prevEnd loc.height ∧
      c.rows.get? loc.height = some loc.indexed_header ∧
      ∀ i, i < c.rows.length → p = c.end_position i → loc.height = i + 1 ∧ loc.offset = 0 := by
  have hlen : (c.rows.map Header.next_txpos).length = c.rows.length :=
    List.length_map _ _
  have hstrict : ∀ a b, a < b → b < (c.rows.map Header.next_txpos).length →
      (c.rows.map Header.next_txpos).getD a 0 < (c.rows.map Header.next_txpos).getD b 0 := by
    intro a b hab hb
    exact posSorted_strict_getD c.rows 0 hsort a b hab (by omega)
  obtain ⟨hle, hgt⟩ := bsHeight_spec (c.rows.map Header.next_txpos) p hstrict
  have hne : c.rows ≠ [] := by
    intro h0
    rw [Chain.next_txpos, h0] at hp
    simp at hp
  have hlenpos : 0 < c.rows.length := List.length_pos.mpr hne
  rw [next_txpos_eq_getD] at hp
  have hh : bsHeight (c.rows.map Header.next_txpos) p < c.rows.length := by
    by_contra hcon
    push_neg at hcon
    have := hle (c.rows.length - 1) (by omega) (by omega)
    omega
  obtain ⟨hdr, hget⟩ : ∃ hdr,
      c.rows.get? (bsHeight (c.rows.map Header.next_txpos) p) = some hdr :=
    ⟨_, List.get?_eq_get (by omega)⟩
  have hprev : c.prevEnd (bsHeight (c.rows.map Header.next_txpos) p) ≤ p := by
    rcases hB : bsHeight (c.rows.map Header.next_txpos) p with _ | n
    · simp [Chain.prevEnd]
    · rw [Chain.prevEnd, end_position_eq_getD]
      exact hle n (by omega) (by omega)
  have hcond : ¬ p < c.prevEnd (bsHeight (c.rows.map Header.next_txpos) p) := by
    omega
  have hfind : c.find_by_txpos p =
      some ⟨bsHeight (c.rows.map Header.next_txpos) p,
            p - c.prevEnd (bsHeight (c.rows.map Header.next_txpos) p), hdr⟩ := by
    rw [find_by_txpos_eq, hget]
    dsimp only
    rw [if_neg hcond]
  refine ⟨by rw [hfind]; rfl, ?_⟩
  intro loc hloc
  rw [hfind] at hloc
  injection hloc with hloc
  subst hloc
  refine ⟨hh, hprev, ?_, rfl, hget, ?_⟩
  · show p < c.end_position (bsHeight (c.rows.map Header.next_txpos) p)
    rw [end_position_eq_getD]
    exact hgt _ (le_refl _) (by omega)
  · intro i hi hpi
    rw [end_position_eq_getD] at hpi
    have hilt : i < bsHeight (c.rows.map Header.next_txpos) p := by
      by_contra hcon
      push_neg at hcon
      have := hgt i hcon (by omega)
      omega
    have heq : bsHeight (c.rows.map Header.next_txpos) p = i + 1 := by
      by_contra hcon
      have hi1 : i + 1 < bsHeight (c.rows.map Header.next_txpos) p := by omega
      have h1 := hle (i + 1) hi1 (by omega)
      have h2 := hstrict i (i + 1) (by omega) (by omega)
      omega
    constructor
    · exact heq
    · show p - c.prevEnd (bsHeight (c.rows.map Header.next_txpos) p) = 0
      rw [heq]
      show p - c.end_position i = 0
      rw [end_position_eq_getD]
      omega

/-- Witness for C1: in a two-header chain with end-positions `[2, 5]`,
position `2` (exactly the first block's boundary) resolves. -/
theorem find_by_txpos_resolves_witness :
    ((Chain.mk [⟨1, 0, 0, 2⟩, ⟨2, 1, 0, 5⟩]).find_by_txpos 2).isSome = true :=
  (find_by_txpos_resolves ⟨[⟨1, 0, 0, 2⟩, ⟨2, 1, 0, 5⟩]⟩ 2
    (by decide) (by decide) (by decide)).1

/-- C5: for every chain satisfying the position invariant and every
position at or beyond `next_txpos`, `find_by_txpos` returns `none`
(the `rows.get(height)` lookup fails) rather than a `Location`. -/
theorem find_by_txpos_beyond (c : Chain) (p : Nat)
    (hsort : c.PosSorted) (hp : c.next_txpos ≤ p) :
    c.find_by_txpos p = none := by
  rw [find_by_txpos_eq]
  rcases eq_or_ne c.rows [] with h0 | hne
  · rw [h0]
    rfl
  · have hlen : (c.rows.map Header.next_txpos).length = c.rows.length :=
      List.length_map _ _
    have hstrict : ∀ a b, a < b → b < (c.rows.map Header.next_txpos).length →
        (c.rows.map Header.next_txpos).getD a 0 < (c.rows.map Header.next_txpos).getD b 0 := by
      intro a b hab hb
      exact posSorted_strict_getD c.rows 0 hsort a b hab (by omega)
    obtain ⟨hle, hgt⟩ := bsHeight_spec (c.rows.map Header.next_txpos) p hstrict
    have hlenpos : 0 < c.rows.length := List.length_pos.mpr hne
    rw [next_txpos_eq_getD] at hp
    have hh : c.rows.length ≤ bsHeight (c.rows.map Header.next_txpos) p := by
      by_contra hcon
      push_neg at hcon
      have := hgt (c.rows.length - 1) (by omega) (by omega)
      omega
    rw [List.get?_eq_none.mpr (by omega)]

/-- Witness for C5: position `2` on a single-block chain whose only
end-position is `2` resolves to nothing. -/
theorem find_by_txpos_beyond_witness :
    (Chain.mk [⟨1, 0, 0, 2⟩]).find_by_txpos 2 = none :=
  find_by_txpos_beyond ⟨[⟨1, 0, 0, 2⟩]⟩ 2 (by decide) (by decide)

/-- C4: `Chain::add` aborts (the embedded `none`) exactly when the new
header's parent hash differs from the current tip hash (the zero hash
on an empty chain), and on success the appended header becomes the new
tip. -/
theorem chain_add_parent_check (c : Chain) (row : Header) :
    (row.prev_blockhash ≠ c.tip_hash.getD 0 → c.add row = none) ∧
    ((c.add row).isSome = true ↔ row.prev_blockhash = c.tip_hash.getD 0) ∧
    (∀ c', c.add row = some c' → c'.tip_hash = some row.hash) := by
  refine ⟨?_, ?_, ?_⟩
  · intro hne
    rw [Chain.add, if_neg hne]
  · constructor
    · intro hs
      by_contra hne
      rw [Chain.add, if_neg hne] at hs
      simp at hs
    · intro heq
      rw [Chain.add, if_pos heq]
      rfl
  · intro c' hc'
    rw [Chain.add] at hc'
    split at hc'
    · injection hc' with hc'
      subst hc'
      simp [Chain.tip_hash, List.getLast?_concat]
    · exact absurd hc' (by simp)

/-- Witness for C4: appending the genesis header (parent = zero hash) to
the empty chain succeeds and makes it the tip; appending a header with
a wrong parent hash fails. -/
theorem chain_add_parent_check_witness :
    (Chain.mk [⟨5, 0, 0, 3⟩]).tip_hash = some 5 ∧
      (Chain.mk []).add ⟨7, 1, 0, 3⟩ = none :=
  ⟨(chain_add_parent_check ⟨[]⟩ ⟨5, 0, 0, 3⟩).2.2 ⟨[⟨5, 0, 0, 3⟩]⟩ (by decide),
   (chain_add_parent_check ⟨[]⟩ ⟨7, 1, 0, 3⟩).1 (by decide)⟩

/-- Counterexample for C6: `Chain::pop` on the empty chain does not fail
or abort — it is `Vec::pop`, which returns `None` and leaves the chain
unchanged, i.e. it succeeds as a no-op, contradicting the claim that an
empty-chain rollback fails. -/
theorem chain_pop_empty_noop :
    (Chain.mk []).pop = (none, Chain.mk []) := rfl

/-- C6 (amended): `pop` on a non-empty chain removes exactly the current
tip (it returns the last header and drops it from the rows); on the
empty chain it returns `none` and leaves the chain unchanged, signalling
through the `Option` rather than failing. -/
theorem chain_pop_spec (c : Chain) :
    (c.rows = [] → c.pop = (none, c)) ∧
    (∀ h rs, c.rows = rs ++ [h] → c.pop = (some h, ⟨rs⟩)) := by
  constructor
  · intro h0
    rw [Chain.pop, h0]
    rfl
  · intro h rs hr
    rw [Chain.pop, hr]
    simp [List.getLast?_concat, List.dropLast_concat]

/-- Witness for C6 (amended): popping a one-header chain returns that
header and the empty chain. -/
theorem chain_pop_spec_witness :
    (Chain.mk [⟨5, 0, 0, 3⟩]).pop = (some ⟨5, 0, 0, 3⟩, Chain.mk []) :=
  (chain_pop_spec ⟨[⟨5, 0, 0, 3⟩]⟩).2 ⟨5, 0, 0, 3⟩ [] rfl

/-- C10: on the empty chain, `tip_hash` and `tip_height` are `None` and
`next_txpos` is the default (zero) position; none of the three
accessors can fail. -/
theorem empty_chain_accessors :
    (Chain.mk []).tip_hash = none ∧
    (Chain.mk []).tip_height = none ∧
    (Chain.mk []).next_txpos = 0 := by
  refine ⟨rfl, rfl, rfl⟩

/-! ## Status engine (`src/bin/bindex.rs`)

Scripts, hashes and transaction byte blobs are opaque naturals. -/

/-- Watched output scripts (`bitcoin::Script`) are opaque. -/
abbrev Script := Nat

/-- The `Ord` order on `Location` (spec: "total order by (height,
offset)"); the `bindex` crate root deriving it is not part of the given
sources. Modelled from the spec. -/
def locLt (a b : Location) : Prop :=
  a.height < b.height ∨ (a.height = b.height ∧ a.offset < b.offset)

instance (a b : Location) : Decidable (locLt a b) := by
  unfold locLt
  infer_instance

/-- Two locations with equal `(height, offset)` keys compare `Equal`
under the `Location` order. -/
def locKeyEq (a b : Location) : Prop :=
  a.height = b.height ∧ a.offset = b.offset

instance (a b : Location) : Decidable (locKeyEq a b) := by
  unfold locKeyEq
  infer_instance

/-- `BTreeSet<Location>` insertion: keep the list strictly sorted by the
`Location` order; inserting an element whose key is already present
keeps the existing element (Rust `BTreeSet::insert` does not replace). -/
def insertLoc (x : Location) : List Location → List Location
  | [] => [x]
  | y :: ys =>
    if locLt x y then x :: y :: ys
    else if locLt y x then y :: insertLoc x ys
    else y :: ys

/-- The `Status` struct: the per-script history map and the combined
`BTreeSet` of locations. -/
structure Status where
  map : List (Script × List Location)
  locations : List Location

/-- `Status::create`: query `index.find` once per watched script,
recording the per-script location lists and extending the combined
`BTreeSet` with every returned location.  The external index's `find`
is a parameter. -/
def Status.create (find : Script → List Location) (scripts : List Script) : Status :=
  { map := scripts.map (fun s => (s, find s)),
    locations :=
      scripts.foldl (fun acc s => (find s).foldl (fun a l => insertLoc l a) acc) [] }

theorem locLt_trans {a b c : Location} (h1 : locLt a b) (h2 : locLt b c) : locLt a c := by
  unfold locLt at h1 h2 ⊢
  omega

theorem locLt_keyEq {a b : Location} (h1 : ¬ locLt a b) (h2 : ¬ locLt b a) : locKeyEq a b := by
  unfold locLt at h1 h2
  unfold locKeyEq
  omega

theorem mem_insertLoc {z x : Location} : ∀ {xs : List Location},
    z ∈ insertLoc x xs → z = x ∨ z ∈ xs := by
  intro xs
  induction xs with
  | nil => intro h; simpa [insertLoc] using h
  | cons y ys ih =>
    intro h
    rw [insertLoc] at h
    by_cases h1 : locLt x y
    · rw [if_pos h1] at h
      rcases List.mem_cons.mp h with h' | h'
      · exact Or.inl h'
      · exact Or.inr h'
    · rw [if_neg h1] at h
      by_cases h2 : locLt y x
      · rw [if_pos h2] at h
        rcases List.mem_cons.mp h with h' | h'
        · exact Or.inr (by simp [h'])
        · rcases ih h' with h'' | h''
          · exact Or.inl h''
          · exact Or.inr (List.mem_cons_of_mem _ h'')
      · rw [if_neg h2] at h
        exact Or.inr h

theorem insertLoc_mem {z x : Location} : ∀ {xs : List Location},
    z ∈ xs → z ∈ insertLoc x xs := by
  intro xs
  induction xs with
  | nil => intro h; simp at h
  | cons y ys ih =>
    intro h
    rw [insertLoc]
    split
    · exact List.mem_cons_of_mem _ h
    · split
      · rcases List.mem_cons.mp h with h' | h'
        · simp [h']
        · exact List.mem_cons_of_mem _ (ih h')
      · exact h

theorem insertLoc_keyEq (x : Location) : ∀ (xs : List Location),
    ∃ z ∈ insertLoc x xs, locKeyEq z x := by
  intro xs
  induction xs with
  | nil => exact ⟨x, by simp [insertLoc], rfl, rfl⟩
  | cons y ys ih =>
    rw [insertLoc]
    split
    · exact ⟨x, by simp, rfl, rfl⟩
    · split
      · obtain ⟨z, hz, hk⟩ := ih
        exact ⟨z, List.mem_cons_of_mem _ hz, hk⟩
      · rename_i h1 h2
        exact ⟨y, by simp, locLt_keyEq h2 h1⟩

theorem pairwise_insertLoc {x : Location} : ∀ {xs : List Location},
    xs.Pairwise locLt → (insertLoc x xs).Pairwise locLt := by
  intro xs
  induction xs with
  | nil => intro _; simp [insertLoc]
  | cons y ys ih =>
    intro hp
    rw [List.pairwise_cons] at hp
    rw [insertLoc]
    split
    · rename_i hxy
      rw [List.pairwise_cons]
      refine ⟨?_, List.pairwise_cons.mpr hp⟩
      intro z hz
      rcases List.mem_cons.mp hz with h' | h'
      · exact h' ▸ hxy
      · exact locLt_trans hxy (hp.1 z h')
    · split
      · rename_i hyx
        rw [List.pairwise_cons]
        refine ⟨?_, ih hp.2⟩
        intro z hz
        rcases mem_insertLoc hz with h' | h'
        · exact h' ▸ hyx
        · exact hp.1 z h'
      · exact List.pairwise_cons.mpr hp

/-- Folding `BTreeSet` inserts over a list of locations. -/
theorem foldl_insertLoc_pairwise (ls : List Location) :
    ∀ (acc : List Location), acc.Pairwise locLt →
      (ls.foldl (fun a l => insertLoc l a) acc).Pairwise locLt := by
  induction ls with
  | nil => intro acc h; exact h
  | cons l ls ih => intro acc h; exact ih _ (pairwise_insertLoc h)

theorem foldl_insertLoc_mem (ls : List Location) :
    ∀ (acc : List Location) (z : Location),
      z ∈ ls.foldl (fun a l => insertLoc l a) acc → z ∈ acc ∨ z ∈ ls := by
  induction ls with
  | nil => intro acc z h; exact Or.inl h
  | cons l ls ih =>
    intro acc z h
    rcases ih _ z h with h' | h'
    · rcases mem_insertLoc h' with h'' | h''
      · exact Or.inr (by simp [h''])
      · exact Or.inl h''
    · exact Or.inr (List.mem_cons_of_mem _ h')

theorem foldl_insertLoc_covers (ls : List Location) :
    ∀ (acc : List Location) (l : Location), l ∈ ls →
      ∃ z ∈ ls.foldl (fun a l => insertLoc l a) acc, locKeyEq z l := by
  have hmono : ∀ (ls : List Location) (acc : List Location) (z : Location),
      z ∈ acc → z ∈ ls.foldl (fun a l => insertLoc l a) acc := by
    intro ls
    induction ls with
    | nil => intro acc z h; exact h
    | cons l ls ih => intro acc z h; exact ih _ z (insertLoc_mem h)
  induction ls with
  | nil => intro acc l h; simp at h
  | cons l' ls ih =>
    intro acc l h
    rcases List.mem_cons.mp h with h' | h'
    · subst h'
      obtain ⟨z, hz, hk⟩ := insertLoc_keyEq l acc
      exact ⟨z, hmono ls _ z hz, hk⟩
    · exact ih _ l h'

theorem foldl_insertLoc_mono (ls : List Location) :
    ∀ (acc : List Location) (z : Location), z ∈ acc →
      z ∈ ls.foldl (fun a l => insertLoc l a) acc := by
  induction ls with
  | nil => intro acc z h; exact h
  | cons l' ls ih => intro acc z h; exact ih _ z (insertLoc_mem h)

theorem gather_pairwise (find : Script → List Location) (ss : List Script) :
    ∀ (acc : List Location), acc.Pairwise locLt →
      (ss.foldl (fun acc s => (find s).foldl (fun a l => insertLoc l a) acc) acc).Pairwise
        locLt := by
  induction ss with
  | nil => intro acc h; exact h
  | cons s ss ih => intro acc h; exact ih _ (foldl_insertLoc_pairwise _ _ h)

theorem gather_mem (find : Script → List Location) (ss : List Script) :
    ∀ (acc : List Location) (z : Location),
      z ∈ ss.foldl (fun acc s => (find s).foldl (fun a l => insertLoc l a) acc) acc →
      z ∈ acc ∨ ∃ s ∈ ss, z ∈ find s := by
  induction ss with
  | nil => intro acc z h; exact Or.inl h
  | cons s ss ih =>
    intro acc z h
    rcases ih _ z h with h' | h'
    · rcases foldl_insertLoc_mem _ _ z h' with h'' | h''
      · exact Or.inl h''
      · exact Or.inr ⟨s, by simp, h''⟩
    · obtain ⟨s', hs', hz⟩ := h'
      exact Or.inr ⟨s', List.mem_cons_of_mem _ hs', hz⟩

theorem gather_mono (find : Script → List Location) (ss : List Script) :
    ∀ (acc : List Location) (z : Location), z ∈ acc →
      z ∈ ss.foldl (fun acc s => (find s).foldl (fun a l => insertLoc l a) acc) acc := by
  induction ss with
  | nil => intro acc z h; exact h
  | cons s ss ih => intro acc z h; exact ih _ z (foldl_insertLoc_mono _ _ z h)

theorem gather_covers (find : Script → List Location) (ss : List Script) :
    ∀ (acc : List Location) (s : Script), s ∈ ss → ∀ l ∈ find s,
      ∃ z ∈ ss.foldl (fun acc s => (find s).foldl (fun a l => insertLoc l a) acc) acc,
        locKeyEq z l := by
  induction ss with
  | nil => intro acc s hs; simp at hs
  | cons s' ss ih =>
    intro acc s hs l hl
    rcases List.mem_cons.mp hs with h' | h'
    · subst h'
      obtain ⟨z, hz, hk⟩ := foldl_insertLoc_covers (find s) acc l hl
      exact ⟨z, gather_mono find ss _ z hz, hk⟩
    · exact ih _ s h' l hl

/-- C7: `Status::create` maps each watched script to its own location
list from `index.find`, and the combined location set is strictly
ascending in the `(height, offset)` order (hence deduplicated: a
transaction touching two watched scripts appears once) and contains a
location per key exactly for the locations found for some watched
script. -/
theorem status_create_gathers (find : Script → List Location) (scripts : List Script) :
    (Status.create find scripts).map = scripts.map (fun s => (s, find s)) ∧
    ((Status.create find scripts).locations).Pairwise locLt ∧
    (∀ l ∈ (Status.create find scripts).locations, ∃ s ∈ scripts, l ∈ find s) ∧
    (∀ s ∈ scripts, ∀ l ∈ find s,
      ∃ z ∈ (Status.create find scripts).locations, locKeyEq z l) := by
  refine ⟨rfl, ?_, ?_, ?_⟩
  · exact gather_pairwise find scripts [] List.Pairwise.nil
  · intro l hl
    exact (gather_mem find scripts [] l hl).resolve_left (by simp)
  · intro s hs l hl
    exact gather_covers find scripts [] s hs l hl

/-- Witness for C7: two watched scripts sharing one transaction — the
combined set keeps it once, in sorted order. -/
theorem status_create_gathers_witness :
    (Status.create
      (fun s => if s = 1 then [⟨3, 0, ⟨9, 8, 7, 6⟩⟩] else [⟨2, 1, ⟨5, 4, 3, 2⟩⟩, ⟨3, 0, ⟨9, 8, 7, 6⟩⟩])
      [1, 2]).map =
      [1, 2].map (fun s =>
        (s, if s = 1 then [⟨3, 0, ⟨9, 8, 7, 6⟩⟩] else [⟨2, 1, ⟨5, 4, 3, 2⟩⟩, ⟨3, 0, ⟨9, 8, 7, 6⟩⟩])) :=
  (status_create_gathers _ [1, 2]).1

/-! ## Ledger replay (`Status::print_history`) -/

/-- A deserialized `bitcoin::Transaction` as the replay loop consumes
it: its computed txid, the inputs' `previous_output` outpoints
`(txid, vout)`, and the outputs' `(script_pubkey, value)` pairs.
The composition `deserialize(index.get_tx_bytes(loc))` is the
`fetch : Location → Tx` parameter of the replay. -/
structure Tx where
  txid : Nat
  inputs : List (Nat × Nat)
  outputs : List (Script × Nat)

/-- The replay-scoped `HashMap<OutPoint, Amount>` working set. -/
abbrev UtxoMap := List ((Nat × Nat) × Nat)

/-- `HashMap` lookup by outpoint key. -/
def findAmount (k : Nat × Nat) : UtxoMap → Option Nat
  | [] => none
  | e :: u => if e.1 = k then some e.2 else findAmount k u

/-- Drop the (first) entry with the given key. -/
def removeKey (k : Nat × Nat) : UtxoMap → UtxoMap
  | [] => []
  | e :: u => if e.1 = k then u else e :: removeKey k u

/-- `HashMap::insert`: overwrite any entry with the same key. -/
def insertUtxo (k : Nat × Nat) (v : Nat) (u : UtxoMap) : UtxoMap :=
  (k, v) :: removeKey k u

/-- The input loop: `if let Some(spent) = unspent.remove(&txi.previous_output)
{ delta -= spent }` for each input in order. -/
def processInputs (ins : List (Nat × Nat)) (ud : UtxoMap × Int) : UtxoMap × Int :=
  match ins with
  | [] => ud
  | i :: is =>
    match findAmount i ud.1 with
    | some a => processInputs is (removeKey i ud.1, ud.2 - (a : Int))
    | none => processInputs is ud

/-- The output loop with explicit running index, mirroring
`tx.output.into_iter().enumerate()`: watched outputs credit `delta` and
are inserted keyed by `(txid, index)`. -/
def processOutputsFrom (watched : Script → Bool) (txid : Nat) :
    Nat → List (Script × Nat) → UtxoMap × Int → UtxoMap × Int
  | _, [], ud => ud
  | n, o :: os, ud =>
    if watched o.1 then
      processOutputsFrom watched txid (n + 1) os
        (insertUtxo (txid, n) o.2 ud.1, ud.2 + (o.2 : Int))
    else
      processOutputsFrom watched txid (n + 1) os ud

def processOutputs (watched : Script → Bool) (txid : Nat)
    (outs : List (Script × Nat)) (ud : UtxoMap × Int) : UtxoMap × Int :=
  processOutputsFrom watched txid 0 outs ud

/-- One display row.  The Rust `Row` renders everything as strings and
additionally records fetch latency and byte size; the fields the claims
speak about are kept, and the `"..."` marker row (`Row::dots`) is the
`dots` flag. -/
structure Row where
  txid : Nat
  time : Nat
  height : Nat
  offset : Nat
  delta : Int
  balance : Int
  dots : Bool
  deriving Repr, DecidableEq

def Row.dotsRow : Row :=
  { txid := 0, time := 0, height := 0, offset := 0, delta := 0, balance := 0, dots := true }

structure ReplayState where
  unspent : UtxoMap
  balance : Int
  rows : List Row

/-- One iteration of the replay loop of `Status::print_history`: fetch
and parse the transaction, debit spent tracked outputs, credit watched
outputs, accumulate the balance and emit a row. -/
def replayStep (watched : Script → Bool) (fetch : Location → Tx)
    (st : ReplayState) (loc : Location) : ReplayState :=
  let tx := fetch loc
  let ud1 := processInputs tx.inputs (st.unspent, 0)
  let ud2 := processOutputs watched tx.txid tx.outputs ud1
  { unspent := ud2.1,
    balance := st.balance + ud2.2,
    rows := st.rows ++ [{ txid := tx.txid, time := loc.indexed_header.time,
                          height := loc.height, offset := loc.offset,
                          delta := ud2.2, balance := st.balance + ud2.2,
                          dots := false }] }

/-- The replay loop over the chronologically sorted location sequence,
starting from the empty working set, zero balance and no rows. -/
def replay (watched : Script → Bool) (fetch : Location → Tx)
    (locs : List Location) : ReplayState :=
  locs.foldl (replayStep watched fetch) ⟨[], 0, []⟩

/-- Sum of the amounts currently held in the working set. -/
def sumUtxo (u : UtxoMap) : Int :=
  (u.map (fun e => (e.2 : Int))).sum

/-- The working set never holds two entries with the same outpoint. -/
def KeysNodup (u : UtxoMap) : Prop :=
  (u.map Prod.fst).Nodup

/-- The presentation step of `print_history` (only reached when the
display limit is positive): reverse to newest-first, truncate to the
limit, append the single `"..."` marker row when the full history was
longer. -/
def presentRows (rows : List Row) (limit : Nat) : List Row :=
  if 0 < limit then
    if limit < rows.length then (rows.reverse.take limit) ++ [Row.dotsRow]
    else rows.reverse.take limit
  else []

theorem findAmount_eq_none {k : Nat × Nat} : ∀ {u : UtxoMap},
    findAmount k u = none ↔ ∀ e ∈ u, e.1 ≠ k := by
  intro u
  induction u with
  | nil => simp [findAmount]
  | cons f u ih =>
    rw [findAmount]
    by_cases hf : f.1 = k
    · simp only [if_pos hf]
      constructor
      · intro h; exact absurd h (by simp)
      · intro h; exact absurd hf (h f (by simp))
    · simp only [if_neg hf]
      rw [ih]
      constructor
      · intro h e he
        rcases List.mem_cons.mp he with h' | h'
        · exact h' ▸ hf
        · exact h e h'
      · intro h e he
        exact h e (List.mem_cons_of_mem _ he)

theorem removeKey_of_none {k : Nat × Nat} : ∀ {u : UtxoMap},
    findAmount k u = none → removeKey k u = u := by
  intro u
  induction u with
  | nil => intro _; rfl
  | cons f u ih =>
    intro h
    rw [findAmount] at h
    rw [removeKey]
    by_cases hf : f.1 = k
    · rw [if_pos hf] at h; exact absurd h (by simp)
    · rw [if_neg hf] at h
      rw [if_neg hf, ih h]

theorem sum_removeKey {k : Nat × Nat} {a : Nat} : ∀ {u : UtxoMap},
    findAmount k u = some a → sumUtxo (removeKey k u) = sumUtxo u - (a : Int) := by
  intro u
  induction u with
  | nil => intro h; simp [findAmount] at h
  | cons f u ih =>
    intro h
    rw [findAmount] at h
    rw [removeKey]
    by_cases hf : f.1 = k
    · rw [if_pos hf] at h
      injection h with h
      subst h
      rw [if_pos hf]
      simp [sumUtxo]
    · rw [if_neg hf] at h
      rw [if_neg hf]
      simp only [sumUtxo, List.map_cons, List.sum_cons]
      rw [show ((removeKey k u).map (fun e => (e.2 : Int))).sum = sumUtxo (removeKey k u) from rfl,
        ih h]
      unfold sumUtxo
      ring

theorem mem_removeKey {e : (Nat × Nat) × Nat} {k : Nat × Nat} : ∀ {u : UtxoMap},
    e ∈ removeKey k u → e ∈ u := by
  intro u
  induction u with
  | nil => intro h; simpa [removeKey] using h
  | cons f u ih =>
    intro h
    rw [removeKey] at h
    by_cases hf : f.1 = k
    · rw [if_pos hf] at h
      exact List.mem_cons_of_mem _ h
    · rw [if_neg hf] at h
      rcases List.mem_cons.mp h with h' | h'
      · simp [h']
      · exact List.mem_cons_of_mem _ (ih h')

theorem mem_removeKey_ne {e : (Nat × Nat) × Nat} {k : Nat × Nat} : ∀ {u : UtxoMap},
    KeysNodup u → e ∈ removeKey k u → e ∈ u ∧ e.1 ≠ k := by
  intro u
  induction u with
  | nil => intro _ h; simp [removeKey] at h
  | cons f u ih =>
    intro hnd h
    rw [KeysNodup, List.map_cons, List.nodup_cons] at hnd
    rw [removeKey] at h
    by_cases hf : f.1 = k
    · rw [if_pos hf] at h
      refine ⟨List.mem_cons_of_mem _ h, ?_⟩
      intro hek
      exact hnd.1 (by
        rw [hf, ← hek]
        exact List.mem_map_of_mem _ h)
    · rw [if_neg hf] at h
      rcases List.mem_cons.mp h with h' | h'
      · exact ⟨by simp [h'], h' ▸ hf⟩
      · obtain ⟨h1, h2⟩ := ih hnd.2 h'
        exact ⟨List.mem_cons_of_mem _ h1, h2⟩

theorem nodup_removeKey {k : Nat × Nat} : ∀ {u : UtxoMap},
    KeysNodup u → KeysNodup (removeKey k u) := by
  intro u
  induction u with
  | nil => intro h; simpa [removeKey] using h
  | cons f u ih =>
    intro hnd
    rw [KeysNodup, List.map_cons, List.nodup_cons] at hnd
    rw [removeKey]
    by_cases hf : f.1 = k
    · rw [if_pos hf]; exact hnd.2
    · rw [if_neg hf]
      rw [KeysNodup, List.map_cons, List.nodup_cons]
      refine ⟨?_, ih hnd.2⟩
      intro hmem
      obtain ⟨e, he, hkey⟩ := List.mem_map.mp hmem
      exact hnd.1 (hkey ▸ List.mem_map_of_mem _ (mem_removeKey he))

theorem nodup_insertUtxo {k : Nat × Nat} {v : Nat} {u : UtxoMap}
    (hnd : KeysNodup u) : KeysNodup (insertUtxo k v u) := by
  rw [insertUtxo, KeysNodup, List.map_cons, List.nodup_cons]
  refine ⟨?_, nodup_removeKey hnd⟩
  intro hmem
  obtain ⟨e, he, hkey⟩ := List.mem_map.mp hmem
  exact (mem_removeKey_ne hnd he).2 hkey

theorem findAmount_removeKey_ne {k k' : Nat × Nat} (hne : k ≠ k') : ∀ {u : UtxoMap},
    findAmount k (removeKey k' u) = findAmount k u := by
  intro u
  induction u with
  | nil => rfl
  | cons f u ih =>
    rw [removeKey, findAmount]
    by_cases hf : f.1 = k'
    · rw [if_pos hf, if_neg (by rw [hf]; exact fun h => hne h.symm)]
    · rw [if_neg hf, findAmount]
      by_cases hfk : f.1 = k
      · rw [if_pos hfk, if_pos hfk]
      · rw [if_neg hfk, if_neg hfk, ih]

theorem findAmount_insertUtxo_ne {k k' : Nat × Nat} {v : Nat} (hne : k ≠ k')
    {u : UtxoMap} : findAmount k (insertUtxo k' v u) = findAmount k u := by
  rw [insertUtxo, findAmount, if_neg (fun h => hne h.symm)]
  exact findAmount_removeKey_ne hne

theorem sum_insertUtxo_none {k : Nat × Nat} {v : Nat} {u : UtxoMap}
    (h : findAmount k u = none) :
    sumUtxo (insertUtxo k v u) = sumUtxo u + (v : Int) := by
  rw [insertUtxo, removeKey_of_none h]
  simp [sumUtxo]
  ring

theorem mem_insertUtxo_cases {e : (Nat × Nat) × Nat} {k : Nat × Nat} {v : Nat}
    {u : UtxoMap} (hnd : KeysNodup u) (h : e ∈ insertUtxo k v u) :
    e = (k, v) ∨ (e ∈ u ∧ e.1 ≠ k) := by
  rw [insertUtxo] at h
  rcases List.mem_cons.mp h with h' | h'
  · exact Or.inl h'
  · exact Or.inr (mem_removeKey_ne hnd h')

theorem processInputs_diff : ∀ (ins : List (Nat × Nat)) (ud : UtxoMap × Int),
    (processInputs ins ud).2 - sumUtxo (processInputs ins ud).1 = ud.2 - sumUtxo ud.1 := by
  intro ins
  induction ins with
  | nil => intro ud; rfl
  | cons i is ih =>
    intro ud
    rw [processInputs]
    rcases hfa : findAmount i ud.1 with _ | a
    · exact ih ud
    · rw [ih]
      dsimp only
      rw [sum_removeKey hfa]
      ring

theorem processInputs_nodup : ∀ (ins : List (Nat × Nat)) (ud : UtxoMap × Int),
    KeysNodup ud.1 → KeysNodup (processInputs ins ud).1 := by
  intro ins
  induction ins with
  | nil => intro ud h; exact h
  | cons i is ih =>
    intro ud hnd
    rw [processInputs]
    rcases hfa : findAmount i ud.1 with _ | a
    · exact ih ud hnd
    · exact ih _ (nodup_removeKey hnd)

theorem processInputs_mem : ∀ (ins : List (Nat × Nat)) (ud : UtxoMap × Int)
    (e : (Nat × Nat) × Nat), KeysNodup ud.1 → e ∈ (processInputs ins ud).1 →
    e ∈ ud.1 ∧ e.1 ∉ ins := by
  intro ins
  induction ins with
  | nil => intro ud e _ h; exact ⟨h, by simp⟩
  | cons i is ih =>
    intro ud e hnd h
    rw [processInputs] at h
    rcases hfa : findAmount i ud.1 with _ | a <;> rw [hfa] at h
    · obtain ⟨h1, h2⟩ := ih ud e hnd h
      refine ⟨h1, ?_⟩
      intro hmem
      rcases List.mem_cons.mp hmem with h' | h'
      · exact (findAmount_eq_none.mp hfa e h1) h'
      · exact h2 h'
    · obtain ⟨h1, h2⟩ := ih _ e (nodup_removeKey hnd) h
      obtain ⟨h3, h4⟩ := mem_removeKey_ne hnd h1
      refine ⟨h3, ?_⟩
      intro hmem
      rcases List.mem_cons.mp hmem with h' | h'
      · exact h4 h'
      · exact h2 h'

theorem processOutputsFrom_diff (watched : Script → Bool) (txid : Nat) :
    ∀ (os : List (Script × Nat)) (n : Nat) (ud : UtxoMap × Int),
    (∀ m, n ≤ m → findAmount (txid, m) ud.1 = none) →
    (processOutputsFrom watched txid n os ud).2 -
      sumUtxo (processOutputsFrom watched txid n os ud).1 = ud.2 - sumUtxo ud.1 := by
  intro os
  induction os with
  | nil => intro n ud _; rfl
  | cons o os ih =>
    intro n ud hfresh
    rw [processOutputsFrom]
    by_cases hw : watched o.1
    · rw [if_pos hw]
      rw [ih (n + 1) _ ?_]
      · dsimp only
        rw [sum_insertUtxo_none (hfresh n (le_refl n))]
        ring
      · intro m hm
        rw [findAmount_insertUtxo_ne (by
          intro hcon
          have : m = n := by
            have := congrArg Prod.snd hcon
            simpa using this
          omega)]
        exact hfresh m (by omega)
    · rw [if_neg hw]
      exact ih (n + 1) ud (fun m hm => hfresh m (by omega))

theorem processOutputsFrom_nodup (watched : Script → Bool) (txid : Nat) :
    ∀ (os : List (Script × Nat)) (n : Nat) (ud : UtxoMap × Int),
    KeysNodup ud.1 → KeysNodup (processOutputsFrom watched txid n os ud).1 := by
  intro os
  induction os with
  | nil => intro n ud h; exact h
  | cons o os ih =>
    intro n ud hnd
    rw [processOutputsFrom]
    by_cases hw : watched o.1
    · rw [if_pos hw]
      exact ih (n + 1) _ (nodup_insertUtxo hnd)
    · rw [if_neg hw]
      exact ih (n + 1) ud hnd

theorem processOutputsFrom_mem (watched : Script → Bool) (txid : Nat) :
    ∀ (os : List (Script × Nat)) (n : Nat) (ud : UtxoMap × Int)
    (e : (Nat × Nat) × Nat), KeysNodup ud.1 →
    e ∈ (processOutputsFrom watched txid n os ud).1 →
    e ∈ ud.1 ∨ (e.1.1 = txid ∧ n ≤ e.1.2 ∧
      ∃ s, os.get? (e.1.2 - n) = some (s, e.2) ∧ watched s = true) := by
  intro os
  induction os with
  | nil => intro n ud e _ h; exact Or.inl h
  | cons o os ih =>
    intro n ud e hnd h
    rw [processOutputsFrom] at h
    by_cases hw : watched o.1
    · rw [if_pos hw] at h
      rcases ih (n + 1) _ e (nodup_insertUtxo hnd) h with h' | h'
      · rcases mem_insertUtxo_cases hnd h' with h'' | h''
        · refine Or.inr ⟨by rw [h''], by rw [h''], o.1, ?_, hw⟩
          rw [h'']
          simp
        · exact Or.inl h''.1
      · obtain ⟨h1, h2, s, h3, h4⟩ := h'
        refine Or.inr ⟨h1, by omega, s, ?_, h4⟩
        have : e.1.2 - n = (e.1.2 - (n + 1)) + 1 := by omega
        rw [this, List.get?_cons_succ]
        exact h3
    · rw [if_neg hw] at h
      rcases ih (n + 1) ud e hnd h with h' | h'
      · exact Or.inl h'
      · obtain ⟨h1, h2, s, h3, h4⟩ := h'
        refine Or.inr ⟨h1, by omega, s, ?_, h4⟩
        have : e.1.2 - n = (e.1.2 - (n + 1)) + 1 := by omega
        rw [this, List.get?_cons_succ]
        exact h3

theorem findAmount_some_mem {k : Nat × Nat} {a : Nat} : ∀ {u : UtxoMap},
    findAmount k u = some a → (k, a) ∈ u := by
  intro u
  induction u with
  | nil => intro h; simp [findAmount] at h
  | cons f u ih =>
    intro h
    rw [findAmount] at h
    by_cases hf : f.1 = k
    · rw [if_pos hf] at h
      injection h with h
      have hfe : f = (k, a) := by rw [← hf, ← h]
      rw [← hfe]
      exact List.mem_cons_self _ _
    · rw [if_neg hf] at h
      exact List.mem_cons_of_mem _ (ih h)

theorem replayStep_unspent (watched : Script → Bool) (fetch : Location → Tx)
    (st : ReplayState) (loc : Location) :
    (replayStep watched fetch st loc).unspent =
      (processOutputs watched (fetch loc).txid (fetch loc).outputs
        (processInputs (fetch loc).inputs (st.unspent, 0))).1 := rfl

theorem replayStep_balance (watched : Script → Bool) (fetch : Location → Tx)
    (st : ReplayState) (loc : Location) :
    (replayStep watched fetch st loc).balance =
      st.balance + (processOutputs watched (fetch loc).txid (fetch loc).outputs
        (processInputs (fetch loc).inputs (st.unspent, 0))).2 := rfl

theorem replayStep_rows (watched : Script → Bool) (fetch : Location → Tx)
    (st : ReplayState) (loc : Location) :
    (replayStep watched fetch st loc).rows =
      st.rows ++ [{ txid := (fetch loc).txid, time := loc.indexed_header.time,
                    height := loc.height, offset := loc.offset,
                    delta := (processOutputs watched (fetch loc).txid (fetch loc).outputs
                      (processInputs (fetch loc).inputs (st.unspent, 0))).2,
                    balance := (replayStep watched fetch st loc).balance,
                    dots := false }] := rfl

theorem replayStep_nodup (watched : Script → Bool) (fetch : Location → Tx)
    (st : ReplayState) (loc : Location) (hnd : KeysNodup st.unspent) :
    KeysNodup (replayStep watched fetch st loc).unspent := by
  rw [replayStep_unspent]
  exact processOutputsFrom_nodup watched _ _ 0 _
    (processInputs_nodup _ _ hnd)

theorem replayStep_fresh_findAmount (watched : Script → Bool) (fetch : Location → Tx)
    (st : ReplayState) (loc : Location) (processed : List Nat)
    (hnd : KeysNodup st.unspent)
    (hmem : ∀ e ∈ st.unspent, e.1.1 ∈ processed)
    (hfresh : (fetch loc).txid ∉ processed) :
    ∀ m, 0 ≤ m →
      findAmount ((fetch loc).txid, m)
        (processInputs (fetch loc).inputs (st.unspent, 0)).1 = none := by
  intro m _
  rcases hfa : findAmount ((fetch loc).txid, m)
      (processInputs (fetch loc).inputs (st.unspent, 0)).1 with _ | a
  · rfl
  · exfalso
    have hin := findAmount_some_mem hfa
    have := (processInputs_mem _ _ _ hnd hin).1
    exact hfresh (hmem _ this)

theorem replayStep_invariant (watched : Script → Bool) (fetch : Location → Tx)
    (st : ReplayState) (loc : Location) (processed : List Nat)
    (hnd : KeysNodup st.unspent)
    (hbal : st.balance = sumUtxo st.unspent)
    (hmem : ∀ e ∈ st.unspent, e.1.1 ∈ processed)
    (hfresh : (fetch loc).txid ∉ processed) :
    KeysNodup (replayStep watched fetch st loc).unspent ∧
    (replayStep watched fetch st loc).balance =
      sumUtxo (replayStep watched fetch st loc).unspent ∧
    (∀ e ∈ (replayStep watched fetch st loc).unspent,
      e.1.1 ∈ processed ++ [(fetch loc).txid]) := by
  have hf := replayStep_fresh_findAmount watched fetch st loc processed hnd hmem hfresh
  have hd2 := processOutputsFrom_diff watched (fetch loc).txid (fetch loc).outputs 0
    (processInputs (fetch loc).inputs (st.unspent, 0)) hf
  have hd1 := processInputs_diff (fetch loc).inputs (st.unspent, 0)
  refine ⟨replayStep_nodup watched fetch st loc hnd, ?_, ?_⟩
  · rw [replayStep_balance, replayStep_unspent]
    rw [processOutputs] at *
    dsimp only at hd1
    omega
  · intro e he
    rw [replayStep_unspent] at he
    rw [processOutputs] at he
    rcases processOutputsFrom_mem watched _ _ 0 _ e
        (processInputs_nodup _ _ hnd) he with h' | h'
    · have := (processInputs_mem _ _ _ hnd h').1
      exact List.mem_append_left _ (hmem _ this)
    · exact List.mem_append_right _ (by simp [h'.1])

theorem replay_fold_invariant (watched : Script → Bool) (fetch : Location → Tx) :
    ∀ (locs : List Location) (st : ReplayState) (processed : List Nat),
    KeysNodup st.unspent →
    st.balance = sumUtxo st.unspent →
    (∀ e ∈ st.unspent, e.1.1 ∈ processed) →
    (∀ l ∈ locs, (fetch l).txid ∉ processed) →
    List.Pairwise (fun a b => (fetch a).txid ≠ (fetch b).txid) locs →
    KeysNodup (locs.foldl (replayStep watched fetch) st).unspent ∧
    (locs.foldl (replayStep watched fetch) st).balance =
      sumUtxo (locs.foldl (replayStep watched fetch) st).unspent ∧
    (∀ e ∈ (locs.foldl (replayStep watched fetch) st).unspent,
      e.1.1 ∈ processed ++ locs.map (fun l => (fetch l).txid)) := by
  intro locs
  induction locs with
  | nil =>
    intro st processed hnd hbal hmem _ _
    exact ⟨hnd, hbal, fun e he => by simpa using hmem e he⟩
  | cons l ls ih =>
    intro st processed hnd hbal hmem hnp hpw
    rw [List.pairwise_cons] at hpw
    obtain ⟨hnd', hbal', hmem'⟩ :=
      replayStep_invariant watched fetch st l processed hnd hbal hmem
        (hnp l (by simp))
    have hnp' : ∀ l' ∈ ls, (fetch l').txid ∉ processed ++ [(fetch l).txid] := by
      intro l' hl'
      intro hcon
      rcases List.mem_append.mp hcon with h' | h'
      · exact hnp l' (List.mem_cons_of_mem _ hl') h'
      · exact hpw.1 l' hl' (List.mem_singleton.mp h').symm
    obtain ⟨h1, h2, h3⟩ := ih (replayStep watched fetch st l)
      (processed ++ [(fetch l).txid]) hnd' hbal' hmem' hnp' hpw.2
    refine ⟨h1, h2, ?_⟩
    intro e he
    have := h3 e he
    simpa [List.append_assoc] using this

/-- C2: after replaying any prefix of the chronologically sorted
location sequence (with pairwise-distinct transaction ids, as computed
txids of distinct on-chain transactions are), the running balance
equals the sum of the amounts currently held in the unspent-output
working set. -/
theorem replay_balance_invariant (watched : Script → Bool) (fetch : Location → Tx)
    (locs : List Location) (k : Nat)
    (hinj : List.Pairwise (fun a b => (fetch a).txid ≠ (fetch b).txid) locs) :
    (replay watched fetch (locs.take k)).balance =
      sumUtxo (replay watched fetch (locs.take k)).unspent := by
  have hp : List.Pairwise (fun a b => (fetch a).txid ≠ (fetch b).txid) (locs.take k) :=
    hinj.sublist (List.take_sublist k locs)
  exact (replay_fold_invariant watched fetch (locs.take k) ⟨[], 0, []⟩ []
    (by simp [KeysNodup]) (by simp [sumUtxo]) (by simp) (by simp) hp).2.1

/-- Witness for C2: two watched payments at heights 0 and 1; after the
two-element prefix the balance equals the working-set sum. -/
theorem replay_balance_invariant_witness :
    (replay (fun s => s == 1)
        (fun loc => ⟨loc.height + 100, [], [(1, 50)]⟩)
        ([⟨0, 0, ⟨1, 0, 0, 1⟩⟩, ⟨1, 0, ⟨2, 1, 0, 2⟩⟩].take 2)).balance =
      sumUtxo (replay (fun s => s == 1)
        (fun loc => ⟨loc.height + 100, [], [(1, 50)]⟩)
        ([⟨0, 0, ⟨1, 0, 0, 1⟩⟩, ⟨1, 0, ⟨2, 1, 0, 2⟩⟩].take 2)).unspent :=
  replay_balance_invariant _ _ _ 2 (by decide)

theorem replayStep_mem_detail (watched : Script → Bool) (fetch : Location → Tx)
    (st : ReplayState) (loc : Location) (e : (Nat × Nat) × Nat)
    (hnd : KeysNodup st.unspent)
    (h : e ∈ (replayStep watched fetch st loc).unspent) :
    (e ∈ st.unspent ∧ e.1 ∉ (fetch loc).inputs) ∨
    (e.1.1 = (fetch loc).txid ∧
      ∃ s, (fetch loc).outputs.get? e.1.2 = some (s, e.2) ∧ watched s = true) := by
  rw [replayStep_unspent, processOutputs] at h
  rcases processOutputsFrom_mem watched _ _ 0 _ e
      (processInputs_nodup _ _ hnd) h with h' | h'
  · exact Or.inl (processInputs_mem _ _ _ hnd h')
  · obtain ⟨h1, -, s, h3, h4⟩ := h'
    rw [Nat.sub_zero] at h3
    exact Or.inr ⟨h1, s, h3, h4⟩

theorem replay_fold_mem (watched : Script → Bool) (fetch : Location → Tx) :
    ∀ (locs : List Location) (st : ReplayState), KeysNodup st.unspent →
    ∀ e ∈ (locs.foldl (replayStep watched fetch) st).unspent,
      (e ∈ st.unspent ∧ ∀ l ∈ locs, e.1 ∉ (fetch l).inputs) ∨
      (∃ j l, locs.get? j = some l ∧ e.1.1 = (fetch l).txid ∧
        (∃ s, (fetch l).outputs.get? e.1.2 = some (s, e.2) ∧ watched s = true) ∧
        (∀ j' l', j < j' → locs.get? j' = some l' → e.1 ∉ (fetch l').inputs)) := by
  intro locs
  induction locs with
  | nil =>
    intro st _ e he
    exact Or.inl ⟨he, by simp⟩
  | cons l ls ih =>
    intro st hnd e he
    rcases ih (replayStep watched fetch st l)
        (replayStep_nodup watched fetch st l hnd) e he with h' | h'
    · obtain ⟨hmem, hclean⟩ := h'
      rcases replayStep_mem_detail watched fetch st l e hnd hmem with h'' | h''
      · refine Or.inl ⟨h''.1, ?_⟩
        intro l' hl'
        rcases List.mem_cons.mp hl' with hc | hc
        · exact hc ▸ h''.2
        · exact hclean l' hc
      · refine Or.inr ⟨0, l, rfl, h''.1, h''.2, ?_⟩
        intro j' l' hj' hget
        rcases j' with _ | m
        · omega
        · rw [List.get?_cons_succ] at hget
          exact hclean l' (List.get?_mem hget)
    · obtain ⟨j, l'', hget, h1, h2, h3⟩ := h'
      refine Or.inr ⟨j + 1, l'', by rw [List.get?_cons_succ]; exact hget, h1, h2, ?_⟩
      intro j' l' hj' hget'
      rcases j' with _ | m
      · omega
      · rw [List.get?_cons_succ] at hget'
        exact h3 m l' (by omega) hget'

/-- C9: at every point of a replay pass (after any prefix of the sorted
location sequence), every entry of the unspent-output working set is a
watched-script output of one of the processed transactions, keyed by
that transaction's own id and output index and carrying that output's
amount, and no transaction processed after it spends that outpoint. -/
theorem replay_unspent_only_watched (watched : Script → Bool) (fetch : Location → Tx)
    (locs : List Location) (k : Nat) (e : (Nat × Nat) × Nat)
    (he : e ∈ (replay watched fetch (locs.take k)).unspent) :
    ∃ j l, (locs.take k).get? j = some l ∧
      e.1.1 = (fetch l).txid ∧
      (∃ s, (fetch l).outputs.get? e.1.2 = some (s, e.2) ∧ watched s = true) ∧
      ∀ j' l', j < j' → (locs.take k).get? j' = some l' → e.1 ∉ (fetch l').inputs := by
  rcases replay_fold_mem watched fetch (locs.take k) ⟨[], 0, []⟩
      (by simp [KeysNodup]) e he with h | h
  · exact absurd h.1 (by simp)
  · exact h

/-- Witness for C9: after replaying one watched payment, the single
working-set entry is that payment's output. -/
theorem replay_unspent_only_watched_witness :
    ∃ j l, ([(⟨0, 0, ⟨1, 0, 0, 1⟩⟩ : Location)].take 1).get? j = some l ∧
      (((100, 0), 50) : (Nat × Nat) × Nat).1.1 =
        ((fun loc : Location => (⟨loc.height + 100, [], [(1, 50)]⟩ : Tx)) l).txid ∧
      (∃ s, ((fun loc : Location => (⟨loc.height + 100, [], [(1, 50)]⟩ : Tx)) l).outputs.get?
          (((100, 0), 50) : (Nat × Nat) × Nat).1.2 =
          some (s, (((100, 0), 50) : (Nat × Nat) × Nat).2) ∧ (fun s => s == 1) s = true) ∧
      ∀ j' l', j < j' → ([(⟨0, 0, ⟨1, 0, 0, 1⟩⟩ : Location)].take 1).get? j' = some l' →
        (((100, 0), 50) : (Nat × Nat) × Nat).1 ∉
          ((fun loc : Location => (⟨loc.height + 100, [], [(1, 50)]⟩ : Tx)) l').inputs :=
  replay_unspent_only_watched (fun s => s == 1)
    (fun loc => ⟨loc.height + 100, [], [(1, 50)]⟩)
    [⟨0, 0, ⟨1, 0, 0, 1⟩⟩] 1 ((100, 0), 50) (by decide)

theorem replay_rows_shape (watched : Script → Bool) (fetch : Location → Tx) :
    ∀ (locs : List Location) (st : ReplayState),
    ((locs.foldl (replayStep watched fetch) st).rows).map
        (fun r => (r.height, r.offset, r.dots)) =
      st.rows.map (fun r => (r.height, r.offset, r.dots)) ++
        locs.map (fun l => (l.height, l.offset, false)) := by
  intro locs
  induction locs with
  | nil => intro st; simp
  | cons l ls ih =>
    intro st
    rw [List.foldl_cons, ih, replayStep_rows]
    simp [List.append_assoc]

/-- C8: the replay emits its display rows oldest-first — strictly
ascending by `(height, offset)` and none of them the marker row — and
the presentation step only reverses them (newest first), truncates to
the most recent `limit`, and appends exactly one `"..."` marker row
precisely when the full history exceeds the limit. -/
theorem replay_rows_presentation (watched : Script → Bool) (fetch : Location → Tx)
    (locs : List Location) (limit : Nat)
    (hsorted : locs.Pairwise locLt) (hl : 0 < limit) :
    ((replay watched fetch locs).rows).Pairwise
      (fun a b => a.height < b.height ∨ (a.height = b.height ∧ a.offset < b.offset)) ∧
    (∀ r ∈ (replay watched fetch locs).rows, r.dots = false) ∧
    presentRows (replay watched fetch locs).rows limit =
      ((replay watched fetch locs).rows.drop
          ((replay watched fetch locs).rows.length - limit)).reverse ++
        (if limit < (replay watched fetch locs).rows.length then [Row.dotsRow] else []) ∧
    ((presentRows (replay watched fetch locs).rows limit).countP (fun r => r.dots)) =
      (if limit < (replay watched fetch locs).rows.length then 1 else 0) := by
  have hshape0 := replay_rows_shape watched fetch locs ⟨[], 0, []⟩
  rw [show (⟨[], 0, []⟩ : ReplayState).rows = [] from rfl, List.map_nil,
    List.nil_append] at hshape0
  have hshape : ((replay watched fetch locs).rows).map
      (fun r => (r.height, r.offset, r.dots)) =
      locs.map (fun l => (l.height, l.offset, false)) := hshape0
  have hdots : ∀ r ∈ (replay watched fetch locs).rows, r.dots = false := by
    intro r hr
    have : (r.height, r.offset, r.dots) ∈
        locs.map (fun l => (l.height, l.offset, false)) := by
      rw [← hshape]
      exact List.mem_map_of_mem _ hr
    obtain ⟨l, -, hl'⟩ := List.mem_map.mp this
    have := congrArg (fun p => p.2.2) hl'
    simpa using this.symm
  have hpair : ((replay watched fetch locs).rows).Pairwise
      (fun a b => a.height < b.height ∨ (a.height = b.height ∧ a.offset < b.offset)) := by
    have h1 : (((replay watched fetch locs).rows).map
        (fun r => (r.height, r.offset, r.dots))).Pairwise
        (fun x y : Nat × Nat × Bool => x.1 < y.1 ∨ (x.1 = y.1 ∧ x.2.1 < y.2.1)) := by
      rw [hshape, List.pairwise_map]
      refine hsorted.imp ?_
      intro a b hab
      unfold locLt at hab
      simpa using hab
    rw [List.pairwise_map] at h1
    exact h1.imp (fun h => by simpa using h)
  refine ⟨hpair, hdots, ?_, ?_⟩
  · rw [presentRows, if_pos hl]
    by_cases htr : limit < (replay watched fetch locs).rows.length
    · rw [if_pos htr, if_pos htr, List.take_reverse]
    · rw [if_neg htr, if_neg htr, List.take_reverse, List.append_nil]
  · rw [presentRows, if_pos hl]
    have hz : ((replay watched fetch locs).rows.reverse.take limit).countP
        (fun r => r.dots) = 0 := by
      rw [List.countP_eq_zero]
      intro r hr
      have hrr : r ∈ (replay watched fetch locs).rows :=
        List.mem_reverse.mp (List.mem_of_mem_take hr)
      simp [hdots r hrr]
    by_cases htr : limit < (replay watched fetch locs).rows.length
    · rw [if_pos htr, if_pos htr, List.countP_append, hz]
      rfl
    · rw [if_neg htr, if_neg htr, hz]

/-- Witness for C8: three sorted rows with display limit two — the two
newest rows are kept, newest first, followed by the single marker. -/
theorem replay_rows_presentation_witness :
    presentRows (replay (fun s => s == 1)
        (fun loc => ⟨loc.height + 100, [], [(1, 50)]⟩)
        [⟨0, 0, ⟨1, 0, 0, 1⟩⟩, ⟨1, 0, ⟨2, 1, 0, 2⟩⟩, ⟨2, 0, ⟨3, 2, 0, 3⟩⟩]).rows 2 =
      ((replay (fun s => s == 1)
        (fun loc => ⟨loc.height + 100, [], [(1, 50)]⟩)
        [⟨0, 0, ⟨1, 0, 0, 1⟩⟩, ⟨1, 0, ⟨2, 1, 0, 2⟩⟩, ⟨2, 0, ⟨3, 2, 0, 3⟩⟩]).rows.drop
          ((replay (fun s => s == 1)
        (fun loc => ⟨loc.height + 100, [], [(1, 50)]⟩)
        [⟨0, 0, ⟨1, 0, 0, 1⟩⟩, ⟨1, 0, ⟨2, 1, 0, 2⟩⟩, ⟨2, 0, ⟨3, 2, 0, 3⟩⟩]).rows.length - 2)).reverse ++
        (if 2 < (replay (fun s => s == 1)
        (fun loc => ⟨loc.height + 100, [], [(1, 50)]⟩)
        [⟨0, 0, ⟨1, 0, 0, 1⟩⟩, ⟨1, 0, ⟨2, 1, 0, 2⟩⟩, ⟨2, 0, ⟨3, 2, 0, 3⟩⟩]).rows.length
          then [Row.dotsRow] else []) :=
  (replay_rows_presentation (fun s => s == 1)
    (fun loc => ⟨loc.height + 100, [], [(1, 50)]⟩)
    [⟨0, 0, ⟨1, 0, 0, 1⟩⟩, ⟨1, 0, ⟨2, 1, 0, 2⟩⟩, ⟨2, 0, ⟨3, 2, 0, 3⟩⟩] 2
    (by decide) (by decide)).2.2.1

/-! ## Cache sync (`Status::sync_sqlite`)

The two SQLite tables are ordered lists of `(primary key, value)` rows;
hex renderings of hashes are injective encodings, embedded as the
identity on the opaque numbers. -/

/-- First row with the given primary key. -/
def lookupTbl {κ ν : Type} [DecidableEq κ] (k : κ) : List (κ × ν) → Option ν
  | [] => none
  | e :: t => if e.1 = k then some e.2 else lookupTbl k t

/-- `INSERT OR IGNORE`: append a fresh row unless the key is present;
also return the added-row count reported by `stmt.execute`. -/
def insertIgnore {κ ν : Type} [DecidableEq κ] (k : κ) (v : ν) (t : List (κ × ν)) :
    List (κ × ν) × Nat :=
  match lookupTbl k t with
  | some _ => (t, 0)
  | none => (t ++ [(k, v)], 1)

/-- `UPDATE ... WHERE` the primary key matches: overwrite the value of
every matching row and return the affected-row count. -/
def updateTbl {κ ν : Type} [DecidableEq κ] (k : κ) (v : ν) (t : List (κ × ν)) :
    List (κ × ν) × Nat :=
  (t.map (fun e => if e.1 = k then (k, v) else e),
   t.countP (fun e => decide (e.1 = k)))

/-- The `(script_hash, block_hash, block_offset) → block_height` rows
the nested history loop of `sync_sqlite` inserts, flattened in
iteration order. -/
def Status.historyRows (st : Status) : List ((Nat × Nat × Nat) × Nat) :=
  st.map.flatMap (fun p =>
    p.2.map (fun loc => ((p.1, loc.indexed_header.hash, loc.offset), loc.height)))

/-- The history loop: `INSERT OR IGNORE INTO history`, summing the
added-row counts into `history_rows`. -/
def historyPass : List ((Nat × Nat × Nat) × Nat) →
    List ((Nat × Nat × Nat) × Nat) → List ((Nat × Nat × Nat) × Nat) × Nat
  | [], tbl => (tbl, 0)
  | r :: rest, tbl =>
    let ins := insertIgnore r.1 r.2 tbl
    let res := historyPass rest ins.1
    (res.1, ins.2 + res.2)

/-- The `txcache` table: `(block_hash, block_offset) → (tx_id, tx_bytes)`
with both value columns nullable. -/
abbrev TxcacheTbl := List ((Nat × Nat) × (Option Nat × Option Nat))

/-- The `(block_hash, block_offset)` primary key of a location's
txcache row. -/
def Location.cacheKey (loc : Location) : Nat × Nat :=
  (loc.indexed_header.hash, loc.offset)

/-- The txcache loop: insert-or-ignore a placeholder row per location;
only when the insert actually added a row, fetch the transaction bytes
(`index.get_tx_bytes`), parse the txid, and update the placeholder.
Also returns the update-row count (`txcache_rows`) and the list of
locations for which the byte fetch was invoked. -/
def txcachePass (get_tx_bytes : Location → Nat) (txidOf : Nat → Nat) :
    List Location → TxcacheTbl → TxcacheTbl × Nat × List Location
  | [], tbl => (tbl, 0, [])
  | loc :: rest, tbl =>
    let key := loc.cacheKey
    let ins := insertIgnore key ((none, none) : Option Nat × Option Nat) tbl
    if 0 < ins.2 then
      let tx_bytes := get_tx_bytes loc
      let txid := txidOf tx_bytes
      let upd := updateTbl key (some txid, some tx_bytes) ins.1
      let res := txcachePass get_tx_bytes txidOf rest upd.1
      (res.1, upd.2 + res.2.1, loc :: res.2.2)
    else
      let res := txcachePass get_tx_bytes txidOf rest ins.1
      (res.1, res.2.1, res.2.2)

/-- The persistent cache (one SQLite file/`:memory:` store). -/
structure DB where
  history : List ((Nat × Nat × Nat) × Nat)
  txcache : TxcacheTbl
  deriving DecidableEq

/-- `Status::sync_sqlite`: one transactional pass (the surrounding
`BEGIN`/`COMMIT` and `CREATE TABLE IF NOT EXISTS` manage the store
itself); returns the new store, the `history_rows` and `txcache_rows`
counters, and the locations whose bytes were fetched. -/
def Status.sync_sqlite (st : Status) (get_tx_bytes : Location → Nat)
    (txidOf : Nat → Nat) (db : DB) : DB × Nat × Nat × List Location :=
  let h := historyPass st.historyRows db.history
  let t := txcachePass get_tx_bytes txidOf st.locations db.txcache
  (⟨h.1, t.1⟩, h.2, t.2.1, t.2.2)

theorem lookupTbl_append_some {κ ν : Type} [DecidableEq κ] {k : κ} {v : ν} :
    ∀ {t t' : List (κ × ν)}, lookupTbl k t = some v → lookupTbl k (t ++ t') = some v := by
  intro t t'
  induction t with
  | nil => intro h; simp [lookupTbl] at h
  | cons e t ih =>
    intro h
    rw [lookupTbl] at h
    rw [List.cons_append, lookupTbl]
    by_cases he : e.1 = k
    · rw [if_pos he] at h ⊢; exact h
    · rw [if_neg he] at h ⊢; exact ih h

theorem lookupTbl_append_none {κ ν : Type} [DecidableEq κ] {k : κ} :
    ∀ {t t' : List (κ × ν)}, lookupTbl k t = none →
      lookupTbl k (t ++ t') = lookupTbl k t' := by
  intro t t'
  induction t with
  | nil => intro _; rfl
  | cons e t ih =>
    intro h
    rw [lookupTbl] at h
    rw [List.cons_append, lookupTbl]
    by_cases he : e.1 = k
    · rw [if_pos he] at h; exact absurd h (by simp)
    · rw [if_neg he] at h ⊢; exact ih h

theorem lookupTbl_insertIgnore_mono {κ ν : Type} [DecidableEq κ] {k k' : κ} {v v' : ν}
    {t : List (κ × ν)} (h : lookupTbl k t = some v) :
    lookupTbl k (insertIgnore k' v' t).1 = some v := by
  rw [insertIgnore]
  rcases hk' : lookupTbl k' t with _ | w
  · exact lookupTbl_append_some h
  · exact h

theorem lookupTbl_insertIgnore_self {κ ν : Type} [DecidableEq κ] (k : κ) (v : ν)
    (t : List (κ × ν)) : lookupTbl k (insertIgnore k v t).1 ≠ none := by
  rw [insertIgnore]
  rcases hk : lookupTbl k t with _ | w
  · rw [lookupTbl_append_none hk]
    simp [lookupTbl]
  · rw [hk]; simp

theorem lookupTbl_updateTbl_ne {κ ν : Type} [DecidableEq κ] {k k' : κ} (hne : k ≠ k')
    (v : ν) : ∀ {t : List (κ × ν)}, lookupTbl k (updateTbl k' v t).1 = lookupTbl k t := by
  intro t
  induction t with
  | nil => rfl
  | cons e t ih =>
    simp only [updateTbl, List.map_cons] at ih ⊢
    by_cases he : e.1 = k'
    · rw [if_pos he, lookupTbl, lookupTbl]
      rw [if_neg (fun h => hne h.symm),
        if_neg (fun h : e.1 = k => hne (by rw [← h, he]))]
      exact ih
    · rw [if_neg he, lookupTbl, lookupTbl]
      by_cases hek : e.1 = k
      · rw [if_pos hek, if_pos hek]
      · rw [if_neg hek, if_neg hek]
        exact ih

theorem lookupTbl_updateTbl_self {κ ν : Type} [DecidableEq κ] {k : κ} {v : ν} :
    ∀ {t : List (κ × ν)}, lookupTbl k t ≠ none →
      lookupTbl k (updateTbl k v t).1 = some v := by
  intro t
  induction t with
  | nil => intro h; exact absurd rfl h
  | cons e t ih =>
    intro h
    rw [lookupTbl] at h
    simp only [updateTbl, List.map_cons] at ih ⊢
    by_cases he : e.1 = k
    · rw [if_pos he, lookupTbl, if_pos rfl]
    · rw [if_neg he] at h
      rw [if_neg he, lookupTbl, if_neg he]
      exact ih h

theorem lookupTbl_updateTbl_present {κ ν : Type} [DecidableEq κ] {k k' : κ} {v' : ν}
    {t : List (κ × ν)} (h : lookupTbl k t ≠ none) :
    lookupTbl k (updateTbl k' v' t).1 ≠ none := by
  by_cases hkk : k = k'
  · subst hkk
    rw [lookupTbl_updateTbl_self h]
    simp
  · rw [lookupTbl_updateTbl_ne hkk]
    exact h

theorem historyPass_cons_present {r : (Nat × Nat × Nat) × Nat}
    {rest : List ((Nat × Nat × Nat) × Nat)} {tbl : List ((Nat × Nat × Nat) × Nat)}
    (h : lookupTbl r.1 tbl ≠ none) :
    historyPass (r :: rest) tbl = historyPass rest tbl := by
  rw [historyPass]
  rcases hk : lookupTbl r.1 tbl with _ | v
  · exact absurd hk h
  · simp [insertIgnore, hk]

theorem historyPass_cons_absent {r : (Nat × Nat × Nat) × Nat}
    {rest : List ((Nat × Nat × Nat) × Nat)} {tbl : List ((Nat × Nat × Nat) × Nat)}
    (h : lookupTbl r.1 tbl = none) :
    historyPass (r :: rest) tbl =
      ((historyPass rest (tbl ++ [r])).1, 1 + (historyPass rest (tbl ++ [r])).2) := by
  rw [historyPass]
  simp [insertIgnore, h]

theorem historyPass_mono {k : Nat × Nat × Nat} {v : Nat} :
    ∀ (rows : List ((Nat × Nat × Nat) × Nat)) {tbl}, lookupTbl k tbl = some v →
      lookupTbl k (historyPass rows tbl).1 = some v := by
  intro rows
  induction rows with
  | nil => intro tbl h; exact h
  | cons r rest ih =>
    intro tbl h
    rcases hk : lookupTbl r.1 tbl with _ | w
    · rw [historyPass_cons_absent hk]
      exact ih (lookupTbl_append_some h)
    · rw [historyPass_cons_present (by rw [hk]; simp)]
      exact ih h

theorem historyPass_present :
    ∀ (rows : List ((Nat × Nat × Nat) × Nat)) (tbl : List ((Nat × Nat × Nat) × Nat))
      (r : (Nat × Nat × Nat) × Nat), r ∈ rows →
      lookupTbl r.1 (historyPass rows tbl).1 ≠ none := by
  intro rows
  induction rows with
  | nil => intro tbl r h; simp at h
  | cons r' rest ih =>
    intro tbl r hr
    rcases List.mem_cons.mp hr with h' | h'
    · subst h'
      rcases hk : lookupTbl r.1 tbl with _ | w
      · rw [historyPass_cons_absent hk]
        have : lookupTbl r.1 (tbl ++ [r]) = some r.2 := by
          rw [lookupTbl_append_none hk, lookupTbl]
          simp
        rw [historyPass_mono rest this]
        simp
      · rw [historyPass_cons_present (by rw [hk]; simp)]
        rw [historyPass_mono rest hk]
        simp
    · rcases hk : lookupTbl r'.1 tbl with _ | w
      · rw [historyPass_cons_absent hk]
        exact ih _ r h'
      · rw [historyPass_cons_present (by rw [hk]; simp)]
        exact ih _ r h'

theorem historyPass_idem :
    ∀ (rows : List ((Nat × Nat × Nat) × Nat)) (tbl : List ((Nat × Nat × Nat) × Nat)),
      (∀ r ∈ rows, lookupTbl r.1 tbl ≠ none) → historyPass rows tbl = (tbl, 0) := by
  intro rows
  induction rows with
  | nil => intro tbl _; rfl
  | cons r rest ih =>
    intro tbl h
    rw [historyPass_cons_present (h r (by simp))]
    exact ih tbl (fun r' hr' => h r' (List.mem_cons_of_mem _ hr'))

theorem txcachePass_cons_present (f : Location → Nat) (g : Nat → Nat)
    {loc : Location} {rest : List Location} {tbl : TxcacheTbl}
    (h : lookupTbl loc.cacheKey tbl ≠ none) :
    txcachePass f g (loc :: rest) tbl = txcachePass f g rest tbl := by
  rw [txcachePass]
  rcases hk : lookupTbl loc.cacheKey tbl with _ | v
  · exact absurd hk h
  · simp [insertIgnore, hk]

theorem txcachePass_cons_absent (f : Location → Nat) (g : Nat → Nat)
    {loc : Location} {rest : List Location} {tbl : TxcacheTbl}
    (h : lookupTbl loc.cacheKey tbl = none) :
    txcachePass f g (loc :: rest) tbl =
      ((txcachePass f g rest
          (updateTbl loc.cacheKey (some (g (f loc)), some (f loc))
            (tbl ++ [(loc.cacheKey, (none, none))])).1).1,
       (updateTbl loc.cacheKey (some (g (f loc)), some (f loc))
          (tbl ++ [(loc.cacheKey, (none, none))])).2 +
         (txcachePass f g rest
          (updateTbl loc.cacheKey (some (g (f loc)), some (f loc))
            (tbl ++ [(loc.cacheKey, (none, none))])).1).2.1,
       loc :: (txcachePass f g rest
          (updateTbl loc.cacheKey (some (g (f loc)), some (f loc))
            (tbl ++ [(loc.cacheKey, (none, none))])).1).2.2) := by
  rw [txcachePass]
  simp [insertIgnore, h]

theorem txcachePass_mono (f : Location → Nat) (g : Nat → Nat) {k : Nat × Nat}
    {v : Option Nat × Option Nat} :
    ∀ (locs : List Location) {tbl : TxcacheTbl}, lookupTbl k tbl = some v →
      lookupTbl k (txcachePass f g locs tbl).1 = some v := by
  intro locs
  induction locs with
  | nil => intro tbl h; exact h
  | cons loc rest ih =>
    intro tbl h
    rcases hk : lookupTbl loc.cacheKey tbl with _ | w
    · rw [txcachePass_cons_absent f g hk]
      have hne : k ≠ loc.cacheKey := by
        intro hcon
        rw [hcon, hk] at h
        exact absurd h (by simp)
      exact ih (by
        rw [lookupTbl_updateTbl_ne hne]
        exact lookupTbl_append_some h)
    · rw [txcachePass_cons_present f g (by rw [hk]; simp)]
      exact ih h

theorem txcachePass_present (f : Location → Nat) (g : Nat → Nat) :
    ∀ (locs : List Location) (tbl : TxcacheTbl) (loc : Location), loc ∈ locs →
      lookupTbl loc.cacheKey (txcachePass f g locs tbl).1 ≠ none := by
  intro locs
  induction locs with
  | nil => intro tbl loc h; simp at h
  | cons loc' rest ih =>
    intro tbl loc hloc
    rcases List.mem_cons.mp hloc with h' | h'
    · subst h'
      rcases hk : lookupTbl loc.cacheKey tbl with _ | w
      · rw [txcachePass_cons_absent f g hk]
        have hpres : lookupTbl loc.cacheKey
            (tbl ++ [(loc.cacheKey, ((none, none) : Option Nat × Option Nat))]) ≠ none := by
          rw [lookupTbl_append_none hk, lookupTbl]
          simp
        rw [txcachePass_mono f g rest (lookupTbl_updateTbl_self hpres)]
        simp
      · rw [txcachePass_cons_present f g (by rw [hk]; simp)]
        rw [txcachePass_mono f g rest hk]
        simp
    · rcases hk : lookupTbl loc'.cacheKey tbl with _ | w
      · rw [txcachePass_cons_absent f g hk]
        exact ih _ loc h'
      · rw [txcachePass_cons_present f g (by rw [hk]; simp)]
        exact ih _ loc h'

theorem txcachePass_fetched (f : Location → Nat) (g : Nat → Nat) :
    ∀ (locs : List Location) (tbl : TxcacheTbl) (l : Location),
      l ∈ (txcachePass f g locs tbl).2.2 → lookupTbl l.cacheKey tbl = none := by
  intro locs
  induction locs with
  | nil => intro tbl l h; simp [txcachePass] at h
  | cons loc rest ih =>
    intro tbl l hl
    rcases hk : lookupTbl loc.cacheKey tbl with _ | w
    · rw [txcachePass_cons_absent f g hk] at hl
      rcases List.mem_cons.mp hl with h' | h'
      · rw [h']
        exact hk
      · have habs := ih _ l h'
        rcases hcon : lookupTbl l.cacheKey tbl with _ | v
        · rfl
        · exfalso
          have h1 : lookupTbl l.cacheKey
              (tbl ++ [(loc.cacheKey, ((none, none) : Option Nat × Option Nat))]) = some v :=
            lookupTbl_append_some hcon
          have h2 : lookupTbl l.cacheKey
              (updateTbl loc.cacheKey (some (g (f loc)), some (f loc))
                (tbl ++ [(loc.cacheKey, ((none, none) : Option Nat × Option Nat))])).1 ≠
              none :=
            lookupTbl_updateTbl_present (by rw [h1]; simp)
          rw [habs] at h2
          exact h2 rfl
    · rw [txcachePass_cons_present f g (by rw [hk]; simp)] at hl
      exact ih _ l hl

theorem txcachePass_idem (f : Location → Nat) (g : Nat → Nat) :
    ∀ (locs : List Location) (tbl : TxcacheTbl),
      (∀ loc ∈ locs, lookupTbl loc.cacheKey tbl ≠ none) →
      txcachePass f g locs tbl = (tbl, 0, []) := by
  intro locs
  induction locs with
  | nil => intro tbl _; rfl
  | cons loc rest ih =>
    intro tbl h
    rw [txcachePass_cons_present f g (h loc (by simp))]
    exact ih tbl (fun l hl => h l (List.mem_cons_of_mem _ hl))

theorem sync_sqlite_eq (st : Status) (f : Location → Nat) (g : Nat → Nat) (db : DB) :
    st.sync_sqlite f g db =
      (⟨(historyPass st.historyRows db.history).1,
        (txcachePass f g st.locations db.txcache).1⟩,
       (historyPass st.historyRows db.history).2,
       (txcachePass f g st.locations db.txcache).2.1,
       (txcachePass f g st.locations db.txcache).2.2) := rfl

/-- C3: rerunning the cache-sync pass on identical input leaves the
store untouched and reports zero added history rows, zero txcache rows
and no byte fetches; a pass never overwrites an existing txcache row
(in particular an already-present `tx_bytes` value); and the external
byte fetch is invoked only for locations whose placeholder insert
actually added a new row (their key was absent from the store). -/
theorem sync_sqlite_idempotent (st : Status) (f : Location → Nat) (g : Nat → Nat)
    (db : DB) :
    st.sync_sqlite f g (st.sync_sqlite f g db).1 =
      ((st.sync_sqlite f g db).1, 0, 0, []) ∧
    (∀ k v, lookupTbl k db.txcache = some v →
      lookupTbl k (st.sync_sqlite f g db).1.txcache = some v) ∧
    (∀ l ∈ (st.sync_sqlite f g db).2.2.2,
      lookupTbl l.cacheKey db.txcache = none) := by
  refine ⟨?_, ?_, ?_⟩
  · rw [sync_sqlite_eq, sync_sqlite_eq]
    have hh : historyPass st.historyRows (historyPass st.historyRows db.history).1 =
        ((historyPass st.historyRows db.history).1, 0) :=
      historyPass_idem _ _ (fun r hr => historyPass_present _ _ r hr)
    have ht : txcachePass f g st.locations (txcachePass f g st.locations db.txcache).1 =
        ((txcachePass f g st.locations db.txcache).1, 0, []) :=
      txcachePass_idem f g _ _ (fun loc hloc => txcachePass_present f g _ _ loc hloc)
    dsimp only
    rw [hh, ht]
  · intro k v hv
    rw [sync_sqlite_eq]
    exact txcachePass_mono f g st.locations hv
  · intro l hl
    rw [sync_sqlite_eq] at hl
    exact txcachePass_fetched f g st.locations db.txcache l hl

/-- Witness for C3: one watched script with one location against an
empty store; the second pass is the identity with zero counters and no
fetches. -/
theorem sync_sqlite_idempotent_witness :
    (Status.mk [(1, [⟨0, 0, ⟨1, 0, 0, 1⟩⟩])] [⟨0, 0, ⟨1, 0, 0, 1⟩⟩]).sync_sqlite
        (fun _ => 7) (fun b => b + 1)
        ((Status.mk [(1, [⟨0, 0, ⟨1, 0, 0, 1⟩⟩])] [⟨0, 0, ⟨1, 0, 0, 1⟩⟩]).sync_sqlite
          (fun _ => 7) (fun b => b + 1) ⟨[], []⟩).1 =
      (((Status.mk [(1, [⟨0, 0, ⟨1, 0, 0, 1⟩⟩])] [⟨0, 0, ⟨1, 0, 0, 1⟩⟩]).sync_sqlite
          (fun _ => 7) (fun b => b + 1) ⟨[], []⟩).1, 0, 0, []) :=
  (sync_sqlite_idempotent (Status.mk [(1, [⟨0, 0, ⟨1, 0, 0, 1⟩⟩])] [⟨0, 0, ⟨1, 0, 0, 1⟩⟩])
    (fun _ => 7) (fun b => b + 1) ⟨[], []⟩).1

end Bindex
